import Mathlib

/-!
Verification of the vfl data-container layer (`vfl.Datum`, `vfl.Data`),
the factor composition algebra, the model prediction contract and the
full-gradient optimizer.  The compiled extension module that implements
these objects is written in C and its sources are not part of this tree
(setup.py builds the `vfl` extension from C files that are absent here),
so the definitions below are a shallow embedding reconstructed from the
written specification, with every detail that the repository's own unit
tests (tests/datum.py, tests/data.py) pin down taken from those tests.
Real-valued observations are modelled as rationals so that every
definition is executable.
-/

namespace Vfl

/-- Error taxonomy of the library (spec section 7, extended with the
dimension-conflict error of factor composition and the index errors the
sequence protocol raises). -/
inductive Err where
  | dimensionMismatch
  | typeValidation
  | rangeValidation
  | singular
  | ioFailure
  | indexOutOfRange
  | dimensionConflict
  deriving DecidableEq

/-- Modelled from the spec: one observation.  `x` is the ordered sequence
of real input coordinates, `y` the real scalar target and `output` the
integer task index; every write path validates `output` to be
non-negative (tests/datum.py, test_output). -/
structure Datum where
  output : ℤ
  x : List ℚ
  y : ℚ
  deriving DecidableEq

instance : Inhabited Datum := ⟨⟨0, [], 0⟩⟩

/-- The input dimensionality of an observation: the length of `x`. -/
def Datum.dims (d : Datum) : ℕ := d.x.length

/-- The sequence length of an observation equals its dimensionality. -/
def Datum.len (d : Datum) : ℕ := d.x.length

/-- Modelled from the spec: construction validates the output index,
failing with a range-validation error when it is negative. -/
def Datum.make (output : ℤ) (x : List ℚ) (y : ℚ) : Except Err Datum :=
  if output < 0 then .error .rangeValidation else .ok ⟨output, x, y⟩

/-- Modelled from the spec: mutating the output index validates it,
failing with a range-validation error when it is negative. -/
def Datum.setOutput (d : Datum) (o : ℤ) : Except Err Datum :=
  if o < 0 then .error .rangeValidation else .ok { d with output := o }

/-- Dynamically-typed values assignable into container slots: numbers
(Python ints and floats both coerce to double), whole observations, and
non-numeric values such as strings. -/
inductive PyVal where
  | num (q : ℚ)
  | datum (d : Datum)
  | nonNum (s : String)
  deriving DecidableEq

/-- Modelled from tests/datum.py test_sequence: indexed read of one input
coordinate; out-of-range reads fail. -/
def Datum.getItem (d : Datum) (i : ℕ) : Except Err ℚ :=
  if h : i < d.x.length then .ok (d.x.get ⟨i, h⟩) else .error .indexOutOfRange

/-- Modelled from tests/datum.py test_sequence: indexed write of one
input coordinate; the assigned value must be numeric and the index in
range. -/
def Datum.setItem (d : Datum) (i : ℕ) (v : PyVal) : Except Err Datum :=
  match v with
  | .num q =>
      if i < d.x.length then .ok { d with x := d.x.set i q }
      else .error .indexOutOfRange
  | _ => .error .typeValidation

/-- Lexicographic order on input locations. -/
def lexLe : List ℚ → List ℚ → Bool
  | [], _ => true
  | _ :: _, [] => false
  | a :: as, b :: bs => if a < b then true else if b < a then false else lexLe as bs

/-- Sort key of the Data container (spec section 3): output index first,
then the input location lexicographically. -/
def Datum.keyLe (a b : Datum) : Bool :=
  if a.output < b.output then true
  else if b.output < a.output then false
  else lexLe a.x b.x

/-- The container's sort order as a relation. -/
def dataLe (a b : Datum) : Prop := Datum.keyLe a b = true

instance : DecidableRel dataLe := fun a b =>
  inferInstanceAs (Decidable (Datum.keyLe a b = true))

theorem lexLe_refl : ∀ l : List ℚ, lexLe l l = true
  | [] => rfl
  | a :: as => by simp [lexLe, lt_irrefl, lexLe_refl as]

theorem lexLe_total : ∀ a b : List ℚ, lexLe a b = true ∨ lexLe b a = true
  | [], _ => Or.inl rfl
  | _ :: _, [] => Or.inr rfl
  | a :: as, b :: bs => by
    rcases lt_trichotomy a b with h | h | h
    · exact Or.inl (by simp [lexLe, h])
    · subst h
      rcases lexLe_total as bs with h2 | h2
      · exact Or.inl (by simp [lexLe, lt_irrefl, h2])
      · exact Or.inr (by simp [lexLe, lt_irrefl, h2])
    · exact Or.inr (by simp [lexLe, h])

theorem lexLe_trans : ∀ a b c : List ℚ,
    lexLe a b = true → lexLe b c = true → lexLe a c = true
  | [], _, _, _, _ => rfl
  | _ :: _, [], _, h, _ => by simp [lexLe] at h
  | _ :: _, _ :: _, [], _, h => by simp [lexLe] at h
  | a :: as, b :: bs, c :: cs, hab, hbc => by
    rcases lt_trichotomy a b with h1 | h1 | h1
    · rcases lt_trichotomy b c with h2 | h2 | h2
      · simp [lexLe, lt_trans h1 h2]
      · subst h2; simp [lexLe, h1]
      · exfalso; simp [lexLe, h2, asymm h2] at hbc
    · subst h1
      rcases lt_trichotomy a c with h2 | h2 | h2
      · simp [lexLe, h2]
      · subst h2
        simp only [lexLe, lt_irrefl, if_false] at hab hbc ⊢
        exact lexLe_trans as bs cs hab hbc
      · exfalso; simp [lexLe, h2, asymm h2] at hbc
    · exfalso; simp [lexLe, h1, asymm h1] at hab

theorem keyLe_refl (a : Datum) : Datum.keyLe a a = true := by
  simp [Datum.keyLe, lt_irrefl, lexLe_refl]

theorem keyLe_total (a b : Datum) :
    Datum.keyLe a b = true ∨ Datum.keyLe b a = true := by
  rcases lt_trichotomy a.output b.output with h | h | h
  · exact Or.inl (by simp [Datum.keyLe, h])
  · rcases lexLe_total a.x b.x with h2 | h2
    · exact Or.inl (by simp [Datum.keyLe, h, lt_irrefl, h2])
    · exact Or.inr (by simp [Datum.keyLe, h, lt_irrefl, h2])
  · exact Or.inr (by simp [Datum.keyLe, h])

theorem keyLe_trans (a b c : Datum) (hab : Datum.keyLe a b = true)
    (hbc : Datum.keyLe b c = true) : Datum.keyLe a c = true := by
  rcases lt_trichotomy a.output b.output with h1 | h1 | h1
  · rcases lt_trichotomy b.output c.output with h2 | h2 | h2
    · simp [Datum.keyLe, lt_trans h1 h2]
    · simp [Datum.keyLe, h2 ▸ h1]
    · exfalso; simp [Datum.keyLe, h2, asymm h2] at hbc
  · rcases lt_trichotomy b.output c.output with h2 | h2 | h2
    · simp [Datum.keyLe, h1 ▸ h2]
    · simp only [Datum.keyLe, h1, h2, lt_irrefl, if_false] at hab hbc ⊢
      exact lexLe_trans a.x b.x c.x hab hbc
    · exfalso; simp [Datum.keyLe, h2, asymm h2] at hbc
  · exfalso; simp [Datum.keyLe, h1, asymm h1] at hab

instance : IsRefl Datum dataLe := ⟨keyLe_refl⟩

instance : IsTotal Datum dataLe := ⟨keyLe_total⟩

instance : IsTrans Datum dataLe := ⟨keyLe_trans⟩

/-- Modelled from the spec: the ordered collection of observations, kept
sorted by (output, x) after every mutation. -/
structure Data where
  elems : List Datum
  deriving DecidableEq

/-- The number of contained observations. -/
def Data.size (dat : Data) : ℕ := dat.elems.length

/-- Modelled from the spec: the derived input dimensionality, 0 for an
empty collection. -/
def Data.dims (dat : Data) : ℕ :=
  match dat.elems with
  | [] => 0
  | d :: _ => d.dims

/-- The empty collection. -/
def Data.empty : Data := ⟨[]⟩

/-- Modelled from tests/data.py (test_len, test_augment_from_grid,
test_augment_from_data): one grid axis is a triple (start, step, end)
whose third entry is the inclusive endpoint, so the number of points is
one more than how often the step fits between start and end. -/
def gridCount (s step e : ℚ) : ℕ :=
  if step ≤ 0 then 0
  else if e < s then 0
  else (⌊(e - s) / step⌋).toNat + 1

/-- The coordinate list of one grid axis. -/
def gridAxis (s step e : ℚ) : List ℚ :=
  (List.range (gridCount s step e)).map (fun i : ℕ => s + (i : ℚ) * step)

/-- Modelled from the spec: a grid expands to the Cartesian product of
its axes, later axes varying fastest. -/
def gridPoints : List (ℚ × ℚ × ℚ) → List (List ℚ)
  | [] => [[]]
  | g :: gs => (gridAxis g.1 g.2.1 g.2.2).flatMap (fun c => (gridPoints gs).map (c :: ·))

/-- Modelled from tests/data.py test_sequence: construction from a grid
replicates the expanded grid once per requested output index, targets
zero, and keeps the result sorted. -/
def Data.fromGridOutputs (g : List (ℚ × ℚ × ℚ)) (outputs : List ℤ) : Data :=
  ⟨List.insertionSort dataLe
    (outputs.flatMap (fun o => (gridPoints g).map (fun p => ⟨o, p, 0⟩)))⟩

/-- Construction from a grid with the default single output index 0. -/
def Data.fromGrid (g : List (ℚ × ℚ × ℚ)) : Data := Data.fromGridOutputs g [0]

/-- Construction from a single observation. -/
def Data.fromDatum (d : Datum) : Data := ⟨[d]⟩

/-- Construction from another collection (merge). -/
def Data.fromData (src : Data) : Data := ⟨List.insertionSort dataLe src.elems⟩

/-- Modelled from the spec: augmenting with a single observation checks
its dimensionality against the collection (an empty collection adopts
the new dimensionality) and inserts it in sorted position; a mismatch is
a dimension-mismatch error (tests/data.py test_augment_from_datum). -/
def Data.augmentDatum (dat : Data) (d : Datum) : Except Err Data :=
  if dat.elems.isEmpty || dat.dims == d.dims then
    .ok ⟨List.orderedInsert dataLe d dat.elems⟩
  else .error .dimensionMismatch

/-- Augmentation by a list of observations, one at a time in order. -/
def augmentList (dat : Data) : List Datum → Except Err Data
  | [] => .ok dat
  | d :: ds =>
    match dat.augmentDatum d with
    | .error e => .error e
    | .ok dat2 => augmentList dat2 ds

/-- Modelled from the spec: augmenting with another collection augments
with each of its observations in order
(tests/data.py test_augment_from_data). -/
def Data.augmentData (dat : Data) (src : Data) : Except Err Data :=
  augmentList dat src.elems

/-- Modelled from the spec: augmenting with a grid checks the grid's
dimensionality (its number of axes) against the collection, then merges
the expanded grid (tests/data.py test_augment_from_grid). -/
def Data.augmentGrid (dat : Data) (g : List (ℚ × ℚ × ℚ)) : Except Err Data :=
  if dat.elems.isEmpty || dat.dims == g.length then
    dat.augmentData (Data.fromGrid g)
  else .error .dimensionMismatch

/-- The text-file format of spec section 6, after tokenization: a header
carrying the row count and the input dimensionality, then one parsed row
(output, x, y) per observation. -/
structure DataFile where
  rows : ℕ
  dims : ℕ
  lines : List (ℤ × List ℚ × ℚ)
  deriving DecidableEq

/-- Modelled from the spec: writing emits the header and one row per
observation in the stored (sorted) order. -/
def Data.write (dat : Data) : DataFile :=
  ⟨dat.size, dat.dims, dat.elems.map (fun d => (d.output, d.x, d.y))⟩

/-- Modelled from the spec: reading validates the header against the rows
(row count, per-row dimensionality, non-negative output indices) and
builds a sorted collection; a malformed file is an i/o error. -/
def Data.read (f : DataFile) : Except Err Data :=
  if f.lines.length == f.rows
      && f.lines.all (fun r => r.2.1.length == f.dims)
      && f.lines.all (fun r => 0 ≤ r.1) then
    .ok ⟨List.insertionSort dataLe (f.lines.map (fun r => ⟨r.1, r.2.1, r.2.2⟩))⟩
  else .error .ioFailure

/-- Modelled from tests/data.py test_augment_from_file: file augmentation
parses the file, checks its dimensionality against the collection — a
mismatch surfaces as an i/o error — and merges the parsed rows. -/
def Data.augmentFile (dat : Data) (f : DataFile) : Except Err Data :=
  match Data.read f with
  | .error e => .error e
  | .ok src =>
    if dat.elems.isEmpty || src.elems.isEmpty || dat.dims == f.dims then
      .ok ⟨src.elems.foldl (fun acc d => List.orderedInsert dataLe d acc) dat.elems⟩
    else .error .ioFailure

/-- Modelled from tests/data.py test_sequence: indexed write replaces one
observation and re-sorts; the assigned value must be an observation and
the index in range. -/
def Data.setItem (dat : Data) (i : ℕ) (v : PyVal) : Except Err Data :=
  match v with
  | .datum d =>
      if i < dat.elems.length then
        .ok ⟨List.orderedInsert dataLe d (dat.elems.eraseIdx i)⟩
      else .error .indexOutOfRange
  | _ => .error .typeValidation

/-- Indexed read of one observation. -/
def Data.getItem (dat : Data) (i : ℕ) : Except Err Datum :=
  if h : i < dat.elems.length then .ok (dat.elems.get ⟨i, h⟩)
  else .error .indexOutOfRange

/-- All observations of a list share the given input dimensionality. -/
def allDims (l : List Datum) (D : ℕ) : Prop := ∀ d ∈ l, d.dims = D

/-- A well-formed collection: sorted, dimensionally uniform, and with
non-negative output indices. -/
def Data.wf (dat : Data) : Prop :=
  List.Sorted dataLe dat.elems ∧ allDims dat.elems dat.dims ∧
    ∀ d ∈ dat.elems, 0 ≤ d.output

theorem dims_of_allDims {l : List Datum} {D : ℕ} (h : allDims l D)
    (hne : l ≠ []) : Data.dims ⟨l⟩ = D := by
  cases l with
  | nil => exact absurd rfl hne
  | cons d rest => exact h d (List.mem_cons_self d rest)

theorem allDims_orderedInsert {l : List Datum} {D : ℕ} {d : Datum}
    (hl : allDims l D) (hd : d.dims = D) :
    allDims (List.orderedInsert dataLe d l) D := by
  intro a ha
  rcases (List.mem_orderedInsert dataLe).mp ha with h | h
  · exact h ▸ hd
  · exact hl a h

theorem allDims_foldl : ∀ (new base : List Datum) (D : ℕ),
    allDims base D → allDims new D →
    allDims (new.foldl (fun acc d => List.orderedInsert dataLe d acc) base) D
  | [], _, _, hb, _ => hb
  | d :: ds, base, D, hb, hn => by
    simp only [List.foldl_cons]
    exact allDims_foldl ds _ D
      (allDims_orderedInsert hb (hn d (List.mem_cons_self d ds)))
      (fun a ha => hn a (List.mem_cons_of_mem d ha))

theorem length_foldl_orderedInsert :
    ∀ (new base : List Datum),
      (new.foldl (fun acc d => List.orderedInsert dataLe d acc) base).length
        = base.length + new.length
  | [], _ => rfl
  | d :: ds, base => by
    simp only [List.foldl_cons]
    rw [length_foldl_orderedInsert ds _, List.orderedInsert_length, List.length_cons]
    omega

theorem sorted_foldl_orderedInsert :
    ∀ (new base : List Datum), List.Sorted dataLe base →
      List.Sorted dataLe
        (new.foldl (fun acc d => List.orderedInsert dataLe d acc) base)
  | [], _, hb => hb
  | d :: ds, base, hb => by
    simp only [List.foldl_cons]
    exact sorted_foldl_orderedInsert ds _ (hb.orderedInsert d base)

theorem augmentList_ok : ∀ (new : List Datum) (dat : Data) (D : ℕ),
    allDims dat.elems D → allDims new D →
    augmentList dat new =
      .ok ⟨new.foldl (fun acc d => List.orderedInsert dataLe d acc) dat.elems⟩
  | [], dat, _, _, _ => by
    simp only [augmentList, List.foldl_nil]
  | d :: ds, dat, D, hdat, hnew => by
    have hd : d.dims = D := hnew d (List.mem_cons_self d ds)
    have hcheck : (dat.elems.isEmpty || dat.dims == d.dims) = true := by
      cases h : dat.elems with
      | nil => simp [h]
      | cons d0 rest =>
        have : dat.dims = D := dims_of_allDims (h ▸ hdat) (by simp [h])
        simp [h, this, hd]
    have hstep : dat.augmentDatum d = .ok ⟨List.orderedInsert dataLe d dat.elems⟩ := by
      simp [Data.augmentDatum, hcheck]
    simp only [augmentList, hstep, List.foldl_cons]
    exact augmentList_ok ds ⟨List.orderedInsert dataLe d dat.elems⟩ D
      (allDims_orderedInsert hdat hd) (fun a ha => hnew a (List.mem_cons_of_mem d ha))

theorem augmentList_sorted : ∀ (new : List Datum) (dat out : Data),
    List.Sorted dataLe dat.elems → augmentList dat new = .ok out →
    List.Sorted dataLe out.elems
  | [], dat, out, hs, h => by
    simp only [augmentList] at h
    cases h
    exact hs
  | d :: ds, dat, out, hs, h => by
    simp only [augmentList] at h
    cases hstep : dat.augmentDatum d with
    | error e => rw [hstep] at h; exact absurd h (by simp)
    | ok dat2 =>
      rw [hstep] at h
      have hdat2 : dat2.elems = List.orderedInsert dataLe d dat.elems := by
        simp only [Data.augmentDatum] at hstep
        by_cases hc : (dat.elems.isEmpty || dat.dims == d.dims) = true
        · rw [if_pos hc] at hstep; cases hstep; rfl
        · rw [if_neg hc] at hstep; exact absurd hstep (by simp)
      exact augmentList_sorted ds dat2 out (hdat2 ▸ hs.orderedInsert d dat.elems) h

theorem mem_gridPoints_length : ∀ (g : List (ℚ × ℚ × ℚ)) (p : List ℚ),
    p ∈ gridPoints g → p.length = g.length
  | [], p, hp => by
    simp only [gridPoints, List.mem_singleton] at hp
    simp [hp]
  | ax :: gs, p, hp => by
    simp only [gridPoints, List.mem_flatMap, List.mem_map] at hp
    obtain ⟨c, _, q, hq, rfl⟩ := hp
    simp [mem_gridPoints_length gs q hq]

theorem length_flatMap_points (pts : List (List ℚ)) :
    ∀ (os : List ℤ),
      (os.flatMap (fun o => pts.map (fun p => (⟨o, p, 0⟩ : Datum)))).length
        = os.length * pts.length
  | [] => by simp
  | o :: os => by
    simp only [List.flatMap_cons, List.length_append, List.length_map,
      length_flatMap_points pts os, List.length_cons]
    ring

/-- Modelled from the spec (section 4.2): the data of one leaf factor
that composition inspects — the set of input dimension indices it
consumes and whether it is declared orthogonal. -/
structure FactorShape where
  dims : List ℕ
  orthogonal : Bool
  deriving DecidableEq

/-- Modelled from the spec: a factor is either a leaf basis function or a
composite of two factors. -/
inductive Factor where
  | leaf (s : FactorShape)
  | composite (f g : Factor)
  deriving DecidableEq

/-- The dimension map of a factor; a composite's map is the union of its
operands' maps. -/
def Factor.dmap : Factor → List ℕ
  | .leaf s => s.dims
  | .composite f g => f.dmap ∪ g.dmap

/-- Whether a factor is declared orthogonal. -/
def Factor.orthogonal : Factor → Bool
  | .leaf s => s.orthogonal
  | .composite f g => f.orthogonal && g.orthogonal

/-- Modelled from the spec (section 4.2, compose): composition fails with
a dimension-conflict error when the operands claim a common input
dimension index and are not declared orthogonal; otherwise it returns
the composite factor. -/
def Factor.compose (f g : Factor) : Except Err Factor :=
  if !(f.dmap ∩ g.dmap).isEmpty && !(f.orthogonal && g.orthogonal) then
    .error .dimensionConflict
  else .ok (.composite f g)

/-- Dot product of two coordinate lists. -/
def dot (a b : List ℚ) : ℚ := (List.zipWith (· * ·) a b).sum

/-- Matrix-vector product, rows as lists. -/
def matVec (m : List (List ℚ)) (v : List ℚ) : List ℚ := m.map (fun row => dot row v)

/-- The quadratic form v' M v. -/
def quadForm (m : List (List ℚ)) (v : List ℚ) : ℚ := dot v (matVec m v)

/-- Modelled from the spec (section 4.3): the posterior state prediction
reads — the factor feature map, the weight-posterior mean and
covariance, the expected observation noise variance, and the correction
from factor-parameter posterior uncertainty. -/
structure Model where
  phi : List ℚ → List ℚ
  wbar : List ℚ
  sigma : List (List ℚ)
  noiseVar : ℚ
  corr : List ℚ → ℚ

/-- Modelled from the spec (section 4.3, predict): the predicted mean at
one input location. -/
def Model.predictMean (M : Model) (x : List ℚ) : ℚ := dot (M.phi x) M.wbar

/-- Modelled from the spec (section 4.3, predict): the predicted variance
at one input location — the feature-space quadratic form plus the noise
variance plus the factor-uncertainty correction — clamped to be
non-negative. -/
def Model.predictVar (M : Model) (x : List ℚ) : ℚ :=
  max 0 (quadForm M.sigma (M.phi x) + M.noiseVar + M.corr x)

/-- Modelled from the spec: predict writes means and variances into the
caller-supplied collections, aligned to their grids. -/
def Model.predict (M : Model) (mean avar : Data) : Data × Data :=
  (⟨mean.elems.map (fun d => { d with y := M.predictMean d.x })⟩,
   ⟨avar.elems.map (fun d => { d with y := M.predictVar d.x })⟩)

/-- Squared Euclidean norm of a coordinate list. -/
def normSq (g : List ℚ) : ℚ := dot g g

/-- Modelled from the spec (section 4.4): the optimizer's view of its
model — the ELBO and its gradient as functions of the concatenated
factor parameter vector. -/
structure Objective where
  elbo : List ℚ → ℚ
  grad : List ℚ → List ℚ

/-- The proposed iterate: a step of size 1/L along the gradient. -/
def proposeStep (P : Objective) (th : List ℚ) (L : ℚ) : List ℚ :=
  List.zipWith (fun t g => t + g / L) th (P.grad th)

/-- Modelled from the spec (section 4.4, step 3): the quadratic
majorization bound's prediction of the ELBO after a step of size 1/L. -/
def stepBound (P : Objective) (th : List ℚ) (L : ℚ) : ℚ :=
  P.elbo th + normSq (P.grad th) / (2 * L)

/-- Modelled from the spec (section 4.4): backtracking — when the
proposal does not reach the bound, L doubles and the step is retried up
to a retry cap; on acceptance L is halved, bounded below. -/
def trySteps (P : Objective) (lmin : ℚ) (th : List ℚ) : ℚ → ℕ → Option (List ℚ × ℚ)
  | _, 0 => none
  | L, r + 1 =>
    if stepBound P th L ≤ P.elbo (proposeStep P th L) then
      some (proposeStep P th L, max lmin (L / 2))
    else trySteps P lmin th (2 * L) r

/-- Modelled from the spec (section 4.4): the accepted iterates of a
full-gradient run, starting from the initial point; a run ends at the
iteration cap, or early when backtracking exhausts its retries (the last
accepted state is retained). -/
def runAccepted (P : Objective) (lmin : ℚ) (retries : ℕ) :
    List ℚ → ℚ → ℕ → List (List ℚ)
  | th, _, 0 => [th]
  | th, L, n + 1 =>
    match trySteps P lmin th L retries with
    | none => [th]
    | some (next, lNext) => th :: runAccepted P lmin retries next lNext n

theorem normSq_nonneg : ∀ g : List ℚ, 0 ≤ normSq g
  | [] => le_refl 0
  | a :: as => by
    have h := normSq_nonneg as
    have ha : 0 ≤ a * a := mul_self_nonneg a
    simp only [normSq, dot, List.zipWith_cons_cons, List.sum_cons] at h ⊢
    linarith

theorem trySteps_accept : ∀ (r : ℕ) (P : Objective) (lmin th : _) (L : ℚ)
    (next : List ℚ) (lNext : ℚ), 0 < L → 0 < lmin →
    trySteps P lmin th L r = some (next, lNext) →
    P.elbo th ≤ P.elbo next ∧ 0 < lNext
  | 0, _, _, _, _, _, _, _, _, h => by simp [trySteps] at h
  | r + 1, P, lmin, th, L, next, lNext, hL, hlmin, h => by
    simp only [trySteps] at h
    by_cases hacc : stepBound P th L ≤ P.elbo (proposeStep P th L)
    · rw [if_pos hacc] at h
      cases h
      constructor
      · have hb : P.elbo th ≤ stepBound P th L := by
          have hnum : 0 ≤ normSq (P.grad th) / (2 * L) :=
            div_nonneg (normSq_nonneg _) (by linarith)
          simp only [stepBound]
          linarith
        exact le_trans hb hacc
      · exact lt_max_of_lt_left hlmin
    · rw [if_neg hacc] at h
      exact trySteps_accept r P lmin th (2 * L) next lNext (by linarith) hlmin h

theorem runAccepted_head (n : ℕ) (P : Objective) (lmin : ℚ) (retries : ℕ)
    (th : List ℚ) (L : ℚ) :
    ∃ t, runAccepted P lmin retries th L n = th :: t := by
  cases n with
  | zero => exact ⟨[], rfl⟩
  | succ m =>
    cases htry : trySteps P lmin th L retries with
    | none => exact ⟨[], by simp [runAccepted, htry]⟩
    | some pair =>
      obtain ⟨next, lNext⟩ := pair
      exact ⟨runAccepted P lmin retries next lNext m, by simp [runAccepted, htry]⟩

theorem gridCount_pos_eq (s step e : ℚ) (hstep : 0 < step) (hse : s ≤ e) :
    gridCount s step e = (⌊(e - s) / step⌋).toNat + 1 := by
  rw [gridCount, if_neg (not_le.mpr hstep), if_neg (not_lt.mpr hse)]

theorem flatMap_single {α β : Type} (f : α → β) :
    ∀ l : List α, (l.flatMap fun x => [f x]) = l.map f
  | [] => rfl
  | a :: as => by rw [List.flatMap_cons, flatMap_single f as]; rfl

theorem gridPoints_single (a b c : ℚ) :
    gridPoints [(a, b, c)] = (gridAxis a b c).map (fun q => [q]) := by
  simp only [gridPoints, List.map_cons, List.map_nil]
  exact flatMap_single (fun q => [q]) _

theorem fromGridOutputs_elems (g : List (ℚ × ℚ × ℚ)) (os : List ℤ) :
    (Data.fromGridOutputs g os).elems
      = List.insertionSort dataLe
          (os.flatMap (fun o => (gridPoints g).map (fun p => ⟨o, p, 0⟩))) := rfl

theorem fromGrid_elems (g : List (ℚ × ℚ × ℚ)) :
    (Data.fromGrid g).elems
      = List.insertionSort dataLe ((gridPoints g).map (fun p => ⟨0, p, 0⟩)) := by
  rw [Data.fromGrid, fromGridOutputs_elems]
  simp

theorem dataLe_single (o : ℤ) (a b ya yb : ℚ) (h : a ≤ b) :
    dataLe ⟨o, [a], ya⟩ ⟨o, [b], yb⟩ := by
  simp only [dataLe, Datum.keyLe, lt_irrefl, if_false, lexLe]
  rcases lt_or_eq_of_le h with h1 | h1
  · simp [h1]
  · simp [h1, lt_irrefl]

theorem sorted_axis_datums (o : ℤ) (s step e : ℚ) (hstep : 0 < step) :
    List.Sorted dataLe ((gridAxis s step e).map (fun c => ⟨o, [c], 0⟩)) := by
  have h : List.Pairwise dataLe (((List.range (gridCount s step e)).map
      (fun i : ℕ => s + (i : ℚ) * step)).map (fun c => (⟨o, [c], 0⟩ : Datum))) := by
    rw [List.pairwise_map, List.pairwise_map]
    refine List.Pairwise.imp ?_ (List.pairwise_lt_range (gridCount s step e))
    intro i j hij
    have hc : (i : ℚ) ≤ (j : ℚ) := by exact_mod_cast le_of_lt hij
    exact dataLe_single o _ _ 0 0
      (add_le_add_left (mul_le_mul_of_nonneg_right hc (le_of_lt hstep)) s)
  exact h

theorem size_fromGridOutputs (g : List (ℚ × ℚ × ℚ)) (os : List ℤ) :
    (Data.fromGridOutputs g os).size = os.length * (gridPoints g).length := by
  rw [Data.size, fromGridOutputs_elems,
    (List.perm_insertionSort dataLe _).length_eq]
  exact length_flatMap_points (gridPoints g) os

theorem mem_fromGridOutputs (g : List (ℚ × ℚ × ℚ)) (os : List ℤ) (d : Datum)
    (hd : d ∈ (Data.fromGridOutputs g os).elems) :
    ∃ o p, o ∈ os ∧ p ∈ gridPoints g ∧ d = ⟨o, p, 0⟩ := by
  rw [fromGridOutputs_elems,
    (List.perm_insertionSort dataLe _).mem_iff] at hd
  simp only [List.mem_flatMap, List.mem_map] at hd
  obtain ⟨o, ho, p, hp, rfl⟩ := hd
  exact ⟨o, p, ho, hp, rfl⟩

theorem allDims_fromGridOutputs (g : List (ℚ × ℚ × ℚ)) (os : List ℤ) :
    allDims (Data.fromGridOutputs g os).elems g.length := by
  intro d hd
  obtain ⟨o, p, _, hp, rfl⟩ := mem_fromGridOutputs g os d hd
  exact mem_gridPoints_length g p hp

theorem filter_output_map (o o2 : ℤ) (pts : List (List ℚ)) :
    ((pts.map (fun p => (⟨o2, p, 0⟩ : Datum))).filter (fun d => d.output == o))
      = if o2 = o then pts.map (fun p => (⟨o2, p, 0⟩ : Datum)) else [] := by
  by_cases h : o2 = o
  · rw [if_pos h]
    apply List.filter_eq_self.mpr
    intro d hd
    simp only [List.mem_map] at hd
    obtain ⟨p, _, rfl⟩ := hd
    simp [h]
  · rw [if_neg h]
    apply List.filter_eq_nil_iff.mpr
    intro d hd
    simp only [List.mem_map] at hd
    obtain ⟨p, _, rfl⟩ := hd
    simp [h]

theorem filter_output_flatMap_not_mem (o : ℤ) (pts : List (List ℚ)) :
    ∀ (os : List ℤ), o ∉ os →
      ((os.flatMap (fun o2 => pts.map (fun p => (⟨o2, p, 0⟩ : Datum)))).filter
        (fun d => d.output == o)) = []
  | [], _ => rfl
  | o2 :: os, h => by
    have hne : ¬ o2 = o := by
      intro he
      subst he
      exact h (List.mem_cons_self o2 os)
    rw [List.flatMap_cons, List.filter_append, filter_output_map, if_neg hne,
      filter_output_flatMap_not_mem o pts os (fun hm => h (List.mem_cons_of_mem o2 hm))]
    rfl

theorem filter_output_flatMap (o : ℤ) (pts : List (List ℚ)) :
    ∀ (os : List ℤ), o ∈ os → os.Nodup →
      ((os.flatMap (fun o2 => pts.map (fun p => (⟨o2, p, 0⟩ : Datum)))).filter
        (fun d => d.output == o)) = pts.map (fun p => (⟨o, p, 0⟩ : Datum))
  | [], hmem, _ => absurd hmem (List.not_mem_nil o)
  | o2 :: os, hmem, hnd => by
    rw [List.flatMap_cons, List.filter_append, filter_output_map]
    rcases List.mem_cons.mp hmem with he | hm
    · subst he
      rw [if_pos rfl,
        filter_output_flatMap_not_mem o pts os (List.nodup_cons.mp hnd).1,
        List.append_nil]
    · have hne : o2 ≠ o := by
        intro he2
        exact (List.nodup_cons.mp hnd).1 (he2 ▸ hm)
      rw [if_neg hne, List.nil_append]
      exact filter_output_flatMap o pts os hm (List.nodup_cons.mp hnd).2

theorem runAccepted_chain : ∀ (n : ℕ) (P : Objective) (lmin : ℚ) (retries : ℕ)
    (th : List ℚ) (L : ℚ), 0 < L → 0 < lmin →
    List.Chain' (· ≤ ·) ((runAccepted P lmin retries th L n).map P.elbo)
  | 0, _, _, _, _, _, _, _ => by simp [runAccepted]
  | n + 1, P, lmin, retries, th, L, hL, hlmin => by
    cases htry : trySteps P lmin th L retries with
    | none => simp [runAccepted, htry]
    | some pair =>
      obtain ⟨next, lNext⟩ := pair
      obtain ⟨hle, hpos⟩ := trySteps_accept retries P lmin th L next lNext hL hlmin htry
      have hrec := runAccepted_chain n P lmin retries next lNext hpos hlmin
      obtain ⟨t, ht⟩ := runAccepted_head n P lmin retries next lNext
      simp only [runAccepted, htry, List.map_cons]
      apply List.Chain'.cons'
      · exact hrec
      · intro b hb
        rw [ht] at hb
        simp only [List.map_cons, List.head?_cons, Option.mem_def,
          Option.some.injEq] at hb
        rw [← hb]
        exact hle

theorem augmentDatum_mismatch (dat : Data) (d : Datum) (hdim : dat.dims ≠ 0)
    (hne : d.dims ≠ dat.dims) :
    dat.augmentDatum d = .error .dimensionMismatch := by
  rcases dat with ⟨elems⟩
  cases elems with
  | nil => exact absurd rfl hdim
  | cons d0 rest =>
    have hcond : ¬ (((d0 :: rest).isEmpty
        || Data.dims ⟨d0 :: rest⟩ == d.dims) = true) := by
      simp only [List.isEmpty_cons, Bool.false_or, beq_iff_eq]
      exact fun he => hne he.symm
    rw [Data.augmentDatum, if_neg hcond]

theorem augmentData_mismatch (dat src : Data) (hdim : dat.dims ≠ 0)
    (hAD : allDims src.elems src.dims) (hne : src.elems ≠ [])
    (hsd : src.dims ≠ dat.dims) :
    dat.augmentData src = .error .dimensionMismatch := by
  rw [Data.augmentData]
  rcases hsrc : src.elems with _ | ⟨d0, rest⟩
  · exact absurd hsrc hne
  · have hd0 : d0.dims = src.dims := hAD d0 (by rw [hsrc]; exact List.mem_cons_self _ _)
    have herr := augmentDatum_mismatch dat d0 hdim (by rw [hd0]; exact hsd)
    simp only [augmentList, herr]

theorem augmentData_empty_ok (src : Data) (D : ℕ) (hAD : allDims src.elems D) :
    ∃ out, Data.empty.augmentData src = .ok out ∧
      (src.elems ≠ [] → out.dims = D) := by
  have hnilAD : allDims Data.empty.elems D := fun d hd => absurd hd (List.not_mem_nil d)
  have h := augmentList_ok src.elems Data.empty D hnilAD hAD
  refine ⟨_, h, ?_⟩
  intro hne
  have hADout := allDims_foldl src.elems Data.empty.elems D hnilAD hAD
  apply dims_of_allDims hADout
  intro hnil
  apply hne
  have hlen := length_foldl_orderedInsert src.elems Data.empty.elems
  rw [hnil] at hlen
  simp only [List.length_nil, Data.empty] at hlen
  exact List.length_eq_zero.mp (by omega)

theorem read_ok_elems (f : DataFile) (src : Data) (h : Data.read f = .ok src) :
    src.elems = List.insertionSort dataLe
        (f.lines.map (fun r => ⟨r.1, r.2.1, r.2.2⟩)) ∧
      (∀ r ∈ f.lines, r.2.1.length = f.dims) ∧
      f.lines.length = f.rows := by
  rw [Data.read] at h
  split at h
  · rename_i hc
    cases h
    simp only [Bool.and_eq_true, beq_iff_eq, List.all_eq_true] at hc
    refine ⟨rfl, ?_, hc.1.1⟩
    intro r hr
    have := hc.1.2 r hr
    simpa using this
  · exact absurd h (by simp)

theorem read_allDims (f : DataFile) (src : Data) (h : Data.read f = .ok src) :
    allDims src.elems f.dims := by
  obtain ⟨helems, hall, _⟩ := read_ok_elems f src h
  intro d hd
  rw [helems, (List.perm_insertionSort dataLe _).mem_iff] at hd
  simp only [List.mem_map] at hd
  obtain ⟨r, hr, rfl⟩ := hd
  exact hall r hr

theorem read_length (f : DataFile) (src : Data) (h : Data.read f = .ok src) :
    src.elems.length = f.lines.length := by
  obtain ⟨helems, _, _⟩ := read_ok_elems f src h
  rw [helems, (List.perm_insertionSort dataLe _).length_eq, List.length_map]

theorem augmentFile_ok_elems (dat : Data) (f : DataFile) (out : Data)
    (h : dat.augmentFile f = .ok out) :
    ∃ src, Data.read f = .ok src ∧
      out.elems = src.elems.foldl
        (fun acc d => List.orderedInsert dataLe d acc) dat.elems := by
  unfold Data.augmentFile at h
  cases hread : Data.read f with
  | error e =>
    rw [hread] at h
    exact absurd h (by simp)
  | ok src =>
    simp only [hread] at h
    refine ⟨src, rfl, ?_⟩
    split at h
    · cases h
      rfl
    · exact absurd h (by simp)

theorem orderedInsert_append_of_not_le (d : Datum) :
    ∀ l : List Datum, (∀ e ∈ l, ¬ dataLe d e) →
      List.orderedInsert dataLe d l = l ++ [d]
  | [], _ => rfl
  | e :: es, h => by
    simp only [List.orderedInsert]
    rw [if_neg (h e (List.mem_cons_self e es)),
      orderedInsert_append_of_not_le d es (fun a ha => h a (List.mem_cons_of_mem e ha))]
    rfl

theorem foldl_orderedInsert_strict :
    ∀ (new base : List Datum),
      (∀ d ∈ new, ∀ e ∈ base, ¬ dataLe d e) →
      List.Pairwise (fun a b => ¬ dataLe b a) new →
      new.foldl (fun acc d => List.orderedInsert dataLe d acc) base = base ++ new
  | [], base, _, _ => (List.append_nil base).symm
  | d :: ds, base, hcross, hp => by
    have h1 : ∀ d2 ∈ ds, ∀ e ∈ base ++ [d], ¬ dataLe d2 e := by
      intro d2 hd2 e he
      rcases List.mem_append.mp he with he | he
      · exact hcross d2 (List.mem_cons_of_mem d hd2) e he
      · rw [List.mem_singleton] at he
        subst he
        exact (List.pairwise_cons.mp hp).1 d2 hd2
    simp only [List.foldl_cons]
    rw [orderedInsert_append_of_not_le d base (hcross d (List.mem_cons_self d ds)),
      foldl_orderedInsert_strict ds (base ++ [d]) h1 (List.pairwise_cons.mp hp).2,
      List.append_assoc]
    rfl

theorem keyLe_single_strict (o : ℤ) (a b ya yb : ℚ) (h : a < b) :
    Datum.keyLe ⟨o, [b], yb⟩ ⟨o, [a], ya⟩ = false := by
  simp only [Datum.keyLe, lt_irrefl, if_false, lexLe]
  rw [if_neg (asymm h), if_pos h]

theorem dataLe_single_strict (o : ℤ) (a b ya yb : ℚ) (h : a < b) :
    ¬ dataLe ⟨o, [b], yb⟩ ⟨o, [a], ya⟩ := by
  rw [dataLe, keyLe_single_strict o a b ya yb h]
  simp

theorem strict_axis_datums (o : ℤ) (s step e : ℚ) (hstep : 0 < step) :
    List.Pairwise (fun a b => ¬ dataLe b a)
      ((gridAxis s step e).map (fun c => ⟨o, [c], 0⟩)) := by
  have h : List.Pairwise (fun a b => ¬ dataLe b a)
      (((List.range (gridCount s step e)).map
        (fun i : ℕ => s + (i : ℚ) * step)).map (fun c => (⟨o, [c], 0⟩ : Datum))) := by
    rw [List.pairwise_map, List.pairwise_map]
    refine List.Pairwise.imp ?_ (List.pairwise_lt_range (gridCount s step e))
    intro i j hij
    have hc : (i : ℚ) < (j : ℚ) := by exact_mod_cast hij
    exact dataLe_single_strict o _ _ 0 0
      (add_lt_add_left (mul_lt_mul_of_pos_right hc hstep) s)
  exact h

theorem fromGrid_axis_elems (s step e : ℚ) (hstep : 0 < step) :
    (Data.fromGrid [(s, step, e)]).elems
      = (gridAxis s step e).map (fun c => ⟨0, [c], 0⟩) := by
  rw [fromGrid_elems, gridPoints_single, List.map_map]
  have hcomp : ((fun p => (⟨0, p, 0⟩ : Datum)) ∘ (fun q : ℚ => [q]))
      = (fun c : ℚ => (⟨0, [c], 0⟩ : Datum)) := rfl
  rw [hcomp]
  exact (sorted_axis_datums 0 s step e hstep).insertionSort_eq

theorem augmentGrid_empty_eq (s step e : ℚ) (hstep : 0 < step) :
    Data.empty.augmentGrid [(s, step, e)] = .ok (Data.fromGrid [(s, step, e)]) := by
  have hAD : allDims (Data.fromGrid [(s, step, e)]).elems 1 :=
    allDims_fromGridOutputs [(s, step, e)] [0]
  have hok := augmentList_ok (Data.fromGrid [(s, step, e)]).elems Data.empty 1
    (fun d hd => absurd hd (List.not_mem_nil d)) hAD
  have hstrict : List.Pairwise (fun a b => ¬ dataLe b a)
      (Data.fromGrid [(s, step, e)]).elems := by
    rw [fromGrid_axis_elems s step e hstep]
    exact strict_axis_datums 0 s step e hstep
  have hfold : (Data.fromGrid [(s, step, e)]).elems.foldl
      (fun acc d => List.orderedInsert dataLe d acc) Data.empty.elems
      = (Data.fromGrid [(s, step, e)]).elems := by
    have h2 := foldl_orderedInsert_strict (Data.fromGrid [(s, step, e)]).elems []
      (fun d _ e2 he2 => absurd he2 (List.not_mem_nil e2)) hstrict
    simpa [Data.empty] using h2
  rw [Data.augmentGrid, if_pos (by simp [Data.empty]), Data.augmentData, hok, hfold]

/-- C1 fails as stated: the repository's tests fix the third entry of a
grid triple as the inclusive endpoint, not the point count, so the grid
[[2, 1, 5]] yields 4 observations (tests/data.py test_len), not 5 —
whether the Data is constructed from the grid or an empty Data is
augmented with it, since augmenting an empty Data with this grid yields
exactly the constructed Data. -/
theorem C1_counterexample :
    (Data.fromGrid [((2 : ℚ), 1, 5)]).size ≠ 5 ∧
    Data.empty.augmentGrid [((2 : ℚ), 1, 5)]
      = .ok (Data.fromGrid [((2 : ℚ), 1, 5)]) := by
  constructor
  · have hc : gridCount 2 1 5 = 4 := by
      rw [gridCount, if_neg (by norm_num), if_neg (by norm_num)]
      norm_num
      decide
    have hsize : (Data.fromGrid [((2 : ℚ), 1, 5)]).size = 4 := by
      rw [Data.fromGrid, size_fromGridOutputs, gridPoints_single]
      simp [gridAxis, hc]
    rw [hsize]
    decide
  · exact augmentGrid_empty_eq 2 1 5 (by norm_num)

/-- C1 (amended): for a one-dimensional grid triple [[s, step, e]] with
positive step and s ≤ e — the third entry being the inclusive endpoint,
as the repository's tests fix — the constructed collection has size
⌊(e−s)/step⌋+1 and dims 1, and its coordinates are exactly s, s+step,
… in sorted order; augmenting an empty collection with the grid
succeeds and yields that same collection, so the size, dims and
coordinate properties hold for the augmentation path as well. -/
theorem C1_grid_corrected (s step e : ℚ) (hstep : 0 < step) (hse : s ≤ e) :
    (Data.fromGrid [(s, step, e)]).size = (⌊(e - s) / step⌋).toNat + 1 ∧
    (Data.fromGrid [(s, step, e)]).dims = 1 ∧
    (Data.fromGrid [(s, step, e)]).elems.map Datum.x
      = (List.range ((⌊(e - s) / step⌋).toNat + 1)).map
          (fun i : ℕ => [s + (i : ℚ) * step]) ∧
    List.Sorted dataLe (Data.fromGrid [(s, step, e)]).elems ∧
    Data.empty.augmentGrid [(s, step, e)] = .ok (Data.fromGrid [(s, step, e)]) := by
  have hcount := gridCount_pos_eq s step e hstep hse
  have hE : (Data.fromGrid [(s, step, e)]).elems
      = (gridAxis s step e).map (fun c => ⟨0, [c], 0⟩) := by
    rw [fromGrid_elems, gridPoints_single, List.map_map]
    have hcomp : ((fun p => (⟨0, p, 0⟩ : Datum)) ∘ (fun q : ℚ => [q]))
        = (fun c : ℚ => (⟨0, [c], 0⟩ : Datum)) := rfl
    rw [hcomp]
    exact (sorted_axis_datums 0 s step e hstep).insertionSort_eq
  refine ⟨?_, ?_, ?_, ?_, ?_⟩
  · rw [Data.size, hE, List.length_map, gridAxis, List.length_map,
      List.length_range, hcount]
  · have hne : (Data.fromGrid [(s, step, e)]).elems ≠ [] := by
      rw [hE, gridAxis, hcount]
      simp
    have hAD : allDims (Data.fromGrid [(s, step, e)]).elems 1 := by
      rw [hE]
      intro d hd
      simp only [List.mem_map] at hd
      obtain ⟨c, _, rfl⟩ := hd
      rfl
    exact dims_of_allDims hAD hne
  · rw [hE, List.map_map, gridAxis, hcount, List.map_map]
    rfl
  · rw [hE]
    exact sorted_axis_datums 0 s step e hstep
  · exact augmentGrid_empty_eq s step e hstep

/-- Witness for C1 at the concrete grid [[2, 1, 5]]. -/
theorem C1_witness :
    (Data.fromGrid [((2 : ℚ), 1, 5)]).size = (⌊((5 : ℚ) - 2) / 1⌋).toNat + 1 ∧
    (Data.fromGrid [((2 : ℚ), 1, 5)]).dims = 1 ∧
    (Data.fromGrid [((2 : ℚ), 1, 5)]).elems.map Datum.x
      = (List.range ((⌊((5 : ℚ) - 2) / 1⌋).toNat + 1)).map
          (fun i : ℕ => [2 + (i : ℚ) * 1]) ∧
    List.Sorted dataLe (Data.fromGrid [((2 : ℚ), 1, 5)]).elems ∧
    Data.empty.augmentGrid [((2 : ℚ), 1, 5)]
      = .ok (Data.fromGrid [((2 : ℚ), 1, 5)]) :=
  C1_grid_corrected 2 1 5 (by norm_num) (by norm_num)

/-- C7: a negative output index is rejected with a range-validation error
both at construction and on mutation, and every observation produced by
a successful construction or mutation has a non-negative output. -/
theorem C7_output_validation :
    (∀ (o : ℤ) (x : List ℚ) (y : ℚ), o < 0 →
      Datum.make o x y = .error .rangeValidation) ∧
    (∀ (d : Datum) (o : ℤ), o < 0 → d.setOutput o = .error .rangeValidation) ∧
    (∀ (o : ℤ) (x : List ℚ) (y : ℚ) (d : Datum),
      Datum.make o x y = .ok d → 0 ≤ d.output) ∧
    (∀ (d : Datum) (o : ℤ) (d2 : Datum), d.setOutput o = .ok d2 → 0 ≤ d2.output) := by
  refine ⟨?_, ?_, ?_, ?_⟩
  · intro o x y h
    rw [Datum.make, if_pos h]
  · intro d o h
    rw [Datum.setOutput, if_pos h]
  · intro o x y d h
    rw [Datum.make] at h
    by_cases ho : o < 0
    · rw [if_pos ho] at h
      exact absurd h (by simp)
    · rw [if_neg ho] at h
      cases h
      exact not_lt.mp ho
  · intro d o d2 h
    rw [Datum.setOutput] at h
    by_cases ho : o < 0
    · rw [if_pos ho] at h
      exact absurd h (by simp)
    · rw [if_neg ho] at h
      cases h
      exact not_lt.mp ho

/-- Witness for C7 at the concrete outputs -2 (construction) and -1
(mutation). -/
theorem C7_witness :
    Datum.make (-2) [] 0 = .error .rangeValidation ∧
    Datum.setOutput ⟨3, [], 0⟩ (-1) = .error .rangeValidation :=
  ⟨C7_output_validation.1 (-2) [] 0 (by decide),
   C7_output_validation.2.1 ⟨3, [], 0⟩ (-1) (by decide)⟩

/-- C10: an observation is a mutable sequence over its input coordinates:
its length and dims both equal the length of x, in-range indexed reads
return the coordinates of x, numeric indexed writes replace exactly that
coordinate, non-numeric writes fail with a type-validation error, and
out-of-range reads fail. -/
theorem C10_datum_sequence :
    (∀ d : Datum, d.len = d.x.length ∧ d.dims = d.x.length) ∧
    (∀ (d : Datum) (i : ℕ) (h : i < d.x.length),
      d.getItem i = .ok (d.x.get ⟨i, h⟩)) ∧
    (∀ (d : Datum) (i : ℕ) (q : ℚ), i < d.x.length →
      d.setItem i (.num q) = .ok ⟨d.output, d.x.set i q, d.y⟩) ∧
    (∀ (d : Datum) (i : ℕ) (s : String),
      d.setItem i (.nonNum s) = .error .typeValidation) ∧
    (∀ (d : Datum) (i : ℕ), d.x.length ≤ i →
      d.getItem i = .error .indexOutOfRange) := by
  refine ⟨fun d => ⟨rfl, rfl⟩, ?_, ?_, ?_, ?_⟩
  · intro d i h
    rw [Datum.getItem, dif_pos h]
  · intro d i q h
    simp [Datum.setItem, h]
  · intro d i s
    rfl
  · intro d i h
    rw [Datum.getItem, dif_neg (not_lt.mpr h)]

/-- Witness for C10 at a concrete two-coordinate observation. -/
theorem C10_witness :
    Datum.getItem ⟨0, [1, 2], 0⟩ 1 = .ok 2 ∧
    Datum.setItem ⟨0, [1, 2], 0⟩ 0 (.num 7) = .ok ⟨0, [7, 2], 0⟩ ∧
    Datum.getItem ⟨0, [1, 2], 0⟩ 2 = .error .indexOutOfRange :=
  ⟨C10_datum_sequence.2.1 ⟨0, [1, 2], 0⟩ 1 (by decide),
   C10_datum_sequence.2.2.1 ⟨0, [1, 2], 0⟩ 0 7 (by decide),
   C10_datum_sequence.2.2.2.2 ⟨0, [1, 2], 0⟩ 2 (by decide)⟩

/-- C8: composing two factors yields the composite whose dimension map is
the union of the operands' maps, and fails with a dimension-conflict
error exactly when the operands claim a common input dimension index and
are not declared orthogonal. -/
theorem C8_compose (f g : Factor) :
    ((f.dmap ∩ g.dmap) ≠ [] → (f.orthogonal && g.orthogonal) = false →
      f.compose g = .error .dimensionConflict) ∧
    ((f.dmap ∩ g.dmap) = [] ∨ (f.orthogonal && g.orthogonal) = true →
      ∃ c, f.compose g = .ok c ∧ c.dmap = f.dmap ∪ g.dmap) := by
  constructor
  · intro hinter horth
    have hc : (!(f.dmap ∩ g.dmap).isEmpty && !(f.orthogonal && g.orthogonal))
        = true := by
      rw [horth]
      simp [List.isEmpty_iff, hinter]
    rw [Factor.compose, if_pos hc]
  · intro h
    have hc : ¬ ((!(f.dmap ∩ g.dmap).isEmpty && !(f.orthogonal && g.orthogonal))
        = true) := by
      rcases h with h | h
      · simp [List.isEmpty_iff, h]
      · simp [h]
    exact ⟨.composite f g, by rw [Factor.compose, if_neg hc], rfl⟩

/-- Witness for C8: two factors on dimension 0 conflict; factors on
dimensions 0 and 1 compose with the union map. -/
theorem C8_witness :
    Factor.compose (.leaf ⟨[0], false⟩) (.leaf ⟨[0], false⟩)
      = .error .dimensionConflict ∧
    ∃ c, Factor.compose (.leaf ⟨[0], false⟩) (.leaf ⟨[1], false⟩) = .ok c ∧
      c.dmap = Factor.dmap (.leaf ⟨[0], false⟩) ∪ Factor.dmap (.leaf ⟨[1], false⟩) :=
  ⟨(C8_compose _ _).1 (by decide) (by decide),
   (C8_compose (.leaf ⟨[0], false⟩) (.leaf ⟨[1], false⟩)).2 (Or.inl (by decide))⟩

/-- C6: every variance value that predict writes into the caller-supplied
variance output is non-negative. -/
theorem C6_predict_var_nonneg (M : Model) (mean avar : Data) (d : Datum)
    (h : d ∈ (M.predict mean avar).2.elems) : 0 ≤ d.y := by
  simp only [Model.predict, List.mem_map] at h
  obtain ⟨d0, _, rfl⟩ := h
  exact le_max_left 0 _

/-- Witness for C6 at a concrete model and variance grid. -/
theorem C6_witness :
    0 ≤ (Datum.mk 0 [1]
      ((⟨fun _ => [], [], [], 0, fun _ => 0⟩ : Model).predictVar [1])).y :=
  C6_predict_var_nonneg ⟨fun _ => [], [], [], 0, fun _ => 0⟩ ⟨[]⟩ ⟨[⟨0, [1], 7⟩]⟩
    (Datum.mk 0 [1] ((⟨fun _ => [], [], [], 0, fun _ => 0⟩ : Model).predictVar [1]))
    (by simp [Model.predict])

/-- C5: across the accepted iterations of a full-gradient run the ELBO is
monotonically non-decreasing, hence non-decreasing up to any non-negative
tolerance between consecutive accepted iterations. -/
theorem C5_elbo_monotonic (P : Objective) (lmin : ℚ) (retries n : ℕ)
    (th : List ℚ) (L eps : ℚ) (hL : 0 < L) (hlmin : 0 < lmin) (heps : 0 ≤ eps) :
    List.Chain' (fun a b => a - eps ≤ b)
      ((runAccepted P lmin retries th L n).map P.elbo) := by
  refine List.Chain'.imp ?_ (runAccepted_chain n P lmin retries th L hL hlmin)
  intro a b hab
  linarith

/-- Witness for C5 at a concrete objective and a two-iteration run. -/
theorem C5_witness :
    List.Chain' (fun a b => a - 0 ≤ b)
      ((runAccepted ⟨fun _ => 0, fun _ => []⟩ 1 1 [] 1 2).map
        (Objective.elbo ⟨fun _ => 0, fun _ => []⟩)) :=
  C5_elbo_monotonic ⟨fun _ => 0, fun _ => []⟩ 1 1 2 [] 1 0 (by norm_num)
    (by norm_num) (le_refl 0)

/-- C2: augmenting a collection of nonzero dims with an observation, a
(nonempty, dimensionally uniform) collection, or a grid of a different
input dimension fails with the dimension-mismatch error, and augmenting
an empty collection from any source kind succeeds and adopts the
source's dimension. -/
theorem C2_augment_dimension_rules :
    (∀ (dat : Data) (d : Datum), dat.dims ≠ 0 → d.dims ≠ dat.dims →
      dat.augmentDatum d = .error .dimensionMismatch) ∧
    (∀ dat src : Data, dat.dims ≠ 0 → allDims src.elems src.dims →
      src.elems ≠ [] → src.dims ≠ dat.dims →
      dat.augmentData src = .error .dimensionMismatch) ∧
    (∀ (dat : Data) (g : List (ℚ × ℚ × ℚ)), dat.dims ≠ 0 →
      g.length ≠ dat.dims → dat.augmentGrid g = .error .dimensionMismatch) ∧
    (∀ d : Datum, ∃ out, Data.empty.augmentDatum d = .ok out ∧
      out.dims = d.dims) ∧
    (∀ src : Data, allDims src.elems src.dims →
      ∃ out, Data.empty.augmentData src = .ok out ∧
        (src.elems ≠ [] → out.dims = src.dims)) ∧
    (∀ g : List (ℚ × ℚ × ℚ), ∃ out, Data.empty.augmentGrid g = .ok out ∧
      (gridPoints g ≠ [] → out.dims = g.length)) ∧
    (∀ (f : DataFile) (src : Data), Data.read f = .ok src →
      ∃ out, Data.empty.augmentFile f = .ok out ∧
        (f.lines ≠ [] → out.dims = f.dims)) := by
  refine ⟨augmentDatum_mismatch, augmentData_mismatch, ?_, ?_, ?_, ?_, ?_⟩
  · intro dat g hdim hne
    rcases dat with ⟨elems⟩
    cases elems with
    | nil => exact absurd rfl hdim
    | cons d0 rest =>
      have hcond : ¬ (((d0 :: rest).isEmpty
          || Data.dims ⟨d0 :: rest⟩ == g.length) = true) := by
        simp only [List.isEmpty_cons, Bool.false_or, beq_iff_eq]
        exact fun he => hne he.symm
      rw [Data.augmentGrid, if_neg hcond]
  · intro d
    exact ⟨⟨[d]⟩, rfl, rfl⟩
  · intro src hAD
    exact augmentData_empty_ok src src.dims hAD
  · intro g
    have hstep : Data.empty.augmentGrid g
        = Data.empty.augmentData (Data.fromGrid g) := by
      rw [Data.augmentGrid, if_pos]
      rfl
    obtain ⟨out, hout, hdims⟩ :=
      augmentData_empty_ok (Data.fromGrid g) g.length (allDims_fromGridOutputs g [0])
    refine ⟨out, by rw [hstep]; exact hout, ?_⟩
    intro hne
    apply hdims
    intro hnil
    apply hne
    have hlen : (Data.fromGrid g).elems.length = 1 * (gridPoints g).length :=
      size_fromGridOutputs g [0]
    rw [hnil] at hlen
    simp only [List.length_nil, one_mul] at hlen
    exact List.length_eq_zero.mp hlen.symm
  · intro f src hread
    have hAD : allDims src.elems f.dims := read_allDims f src hread
    refine ⟨⟨src.elems.foldl (fun acc d => List.orderedInsert dataLe d acc)
      Data.empty.elems⟩, ?_, ?_⟩
    · simp only [Data.augmentFile, hread]
      rw [if_pos]
      simp [Data.empty]
    · intro hne
      have hADout := allDims_foldl src.elems Data.empty.elems f.dims
        (fun d hd => absurd hd (List.not_mem_nil d)) hAD
      apply dims_of_allDims hADout
      intro hnil
      apply hne
      have hlen := length_foldl_orderedInsert src.elems Data.empty.elems
      rw [hnil] at hlen
      simp only [List.length_nil, Data.empty] at hlen
      have hsl := read_length f src hread
      rw [List.length_eq_zero.mp (by omega : src.elems.length = 0)] at hsl
      exact List.length_eq_zero.mp hsl.symm

/-- Witness for C2: a 1-dimensional collection rejects a 2-dimensional
observation and a 2-dimensional grid; an empty collection adopts an
observation's dimension. -/
theorem C2_witness :
    Data.augmentDatum ⟨[⟨0, [1], 0⟩]⟩ ⟨0, [1, 2], 0⟩
      = .error .dimensionMismatch ∧
    Data.augmentGrid ⟨[⟨0, [1], 0⟩]⟩ [((1 : ℚ), 1, 3), ((1 : ℚ), 1, 3)]
      = .error .dimensionMismatch ∧
    ∃ out, Data.empty.augmentDatum ⟨2, [1, 2], 0⟩ = .ok out ∧ out.dims = 2 :=
  ⟨C2_augment_dimension_rules.1 ⟨[⟨0, [1], 0⟩]⟩ ⟨0, [1, 2], 0⟩
      (by decide) (by decide),
   C2_augment_dimension_rules.2.2.1 ⟨[⟨0, [1], 0⟩]⟩
      [((1 : ℚ), 1, 3), ((1 : ℚ), 1, 3)] (by decide) (by decide),
   C2_augment_dimension_rules.2.2.2.1 ⟨2, [1, 2], 0⟩⟩

/-- C4: after every mutating operation — construction from a grid (with
output replication), a single observation, another collection or a file,
augmentation from any source kind, and indexed element replacement — the
collection is sorted by (output, x). -/
theorem C4_sorted_invariant :
    (∀ (g : List (ℚ × ℚ × ℚ)) (os : List ℤ),
      List.Sorted dataLe (Data.fromGridOutputs g os).elems) ∧
    (∀ d : Datum, List.Sorted dataLe (Data.fromDatum d).elems) ∧
    (∀ src : Data, List.Sorted dataLe (Data.fromData src).elems) ∧
    (∀ (f : DataFile) (dat : Data), Data.read f = .ok dat →
      List.Sorted dataLe dat.elems) ∧
    (∀ (dat : Data) (d : Datum) (out : Data), List.Sorted dataLe dat.elems →
      dat.augmentDatum d = .ok out → List.Sorted dataLe out.elems) ∧
    (∀ dat src out : Data, List.Sorted dataLe dat.elems →
      dat.augmentData src = .ok out → List.Sorted dataLe out.elems) ∧
    (∀ (dat : Data) (g : List (ℚ × ℚ × ℚ)) (out : Data),
      List.Sorted dataLe dat.elems → dat.augmentGrid g = .ok out →
      List.Sorted dataLe out.elems) ∧
    (∀ (dat : Data) (f : DataFile) (out : Data), List.Sorted dataLe dat.elems →
      dat.augmentFile f = .ok out → List.Sorted dataLe out.elems) ∧
    (∀ (dat : Data) (i : ℕ) (v : PyVal) (out : Data),
      List.Sorted dataLe dat.elems → dat.setItem i v = .ok out →
      List.Sorted dataLe out.elems) := by
  refine ⟨?_, ?_, ?_, ?_, ?_, ?_, ?_, ?_, ?_⟩
  · intro g os
    rw [fromGridOutputs_elems]
    exact List.sorted_insertionSort dataLe _
  · intro d
    exact List.sorted_singleton d
  · intro src
    exact List.sorted_insertionSort dataLe _
  · intro f dat h
    obtain ⟨helems, _, _⟩ := read_ok_elems f dat h
    rw [helems]
    exact List.sorted_insertionSort dataLe _
  · intro dat d out hs h
    rw [Data.augmentDatum] at h
    split at h
    · cases h
      exact hs.orderedInsert d dat.elems
    · exact absurd h (by simp)
  · intro dat src out hs h
    exact augmentList_sorted src.elems dat out hs h
  · intro dat g out hs h
    rw [Data.augmentGrid] at h
    split at h
    · exact augmentList_sorted (Data.fromGrid g).elems dat out hs h
    · exact absurd h (by simp)
  · intro dat f out hs h
    obtain ⟨src, _, helems⟩ := augmentFile_ok_elems dat f out h
    rw [helems]
    exact sorted_foldl_orderedInsert src.elems dat.elems hs
  · intro dat i v out hs h
    cases v with
    | num q => exact absurd h (by simp [Data.setItem])
    | nonNum s => exact absurd h (by simp [Data.setItem])
    | datum d =>
      simp only [Data.setItem] at h
      split at h
      · cases h
        have hs2 : List.Sorted dataLe (dat.elems.eraseIdx i) :=
          List.Pairwise.sublist (List.eraseIdx_sublist dat.elems i) hs
        exact hs2.orderedInsert d _
      · exact absurd h (by simp)

/-- Witness for C4: augmenting the empty collection with one observation
yields a sorted collection. -/
theorem C4_witness : List.Sorted dataLe (⟨[⟨0, [1], 2⟩]⟩ : Data).elems :=
  C4_sorted_invariant.2.2.2.2.1 Data.empty ⟨0, [1], 2⟩ ⟨[⟨0, [1], 2⟩]⟩
    List.sorted_nil rfl

/-- C3: writing a well-formed collection to a file and reading the file
back succeeds and yields a collection of the same size and dims whose
elements carry, position by position, identical (output, x, y) triples. -/
theorem C3_roundtrip (dat : Data) (h : dat.wf) :
    ∃ out, Data.read (Data.write dat) = .ok out ∧ out.size = dat.size ∧
      out.dims = dat.dims ∧
      out.elems.map (fun d => (d.output, d.x, d.y))
        = dat.elems.map (fun d => (d.output, d.x, d.y)) := by
  obtain ⟨hsort, hdims, hout⟩ := h
  have hread : Data.read (Data.write dat) = .ok dat := by
    rw [Data.read]
    split
    · rcases dat with ⟨elems⟩
      simp only [Data.write]
      rw [List.map_map]
      have hid : ((fun r : ℤ × List ℚ × ℚ => (⟨r.1, r.2.1, r.2.2⟩ : Datum))
          ∘ (fun d : Datum => (d.output, d.x, d.y))) = id := funext fun d => rfl
      rw [hid, List.map_id, hsort.insertionSort_eq]
    · rename_i hc
      exfalso
      apply hc
      simp only [Data.write, Bool.and_eq_true, beq_iff_eq, List.length_map,
        List.all_eq_true, List.mem_map]
      refine ⟨⟨rfl, ?_⟩, ?_⟩
      · rintro r ⟨d, hd, rfl⟩
        simpa using hdims d hd
      · rintro r ⟨d, hd, rfl⟩
        simpa using hout d hd
  exact ⟨dat, hread, rfl, rfl, rfl⟩

/-- Witness for C3 at a concrete one-element collection. -/
theorem C3_witness :
    ∃ out, Data.read (Data.write ⟨[⟨0, [1], 2⟩]⟩) = .ok out ∧
      out.size = (⟨[⟨0, [1], 2⟩]⟩ : Data).size ∧
      out.dims = (⟨[⟨0, [1], 2⟩]⟩ : Data).dims ∧
      out.elems.map (fun d => (d.output, d.x, d.y))
        = (⟨[⟨0, [1], 2⟩]⟩ : Data).elems.map (fun d => (d.output, d.x, d.y)) :=
  C3_roundtrip ⟨[⟨0, [1], 2⟩]⟩
    ⟨List.sorted_singleton _,
     by
       intro d hd
       rw [List.mem_singleton] at hd
       subst hd
       rfl,
     by
       intro d hd
       rw [List.mem_singleton] at hd
       subst hd
       decide⟩

/-- C9 (amended): construction from a grid with m listed output indices
has size m times the grid's point count, the collection is sorted by
(output, x) — so the copies appear in ascending output order, not in
the listed order — and, when the listed outputs are distinct, the
elements tagged with each listed output are exactly the expanded grid
points. -/
theorem C9_grid_outputs (g : List (ℚ × ℚ × ℚ)) (os : List ℤ) :
    (Data.fromGridOutputs g os).size = os.length * (gridPoints g).length ∧
    List.Sorted dataLe (Data.fromGridOutputs g os).elems ∧
    (∀ o ∈ os, os.Nodup →
      List.Perm (((Data.fromGridOutputs g os).elems.filter
        (fun d => d.output == o)).map Datum.x) (gridPoints g)) := by
  refine ⟨size_fromGridOutputs g os, ?_, ?_⟩
  · rw [fromGridOutputs_elems]
    exact List.sorted_insertionSort dataLe _
  · intro o ho hnd
    have hperm : List.Perm (Data.fromGridOutputs g os).elems
        (os.flatMap (fun o2 => (gridPoints g).map (fun p => ⟨o2, p, 0⟩))) := by
      rw [fromGridOutputs_elems]
      exact List.perm_insertionSort dataLe _
    have hfilter := hperm.filter (fun d => d.output == o)
    rw [filter_output_flatMap o (gridPoints g) os ho hnd] at hfilter
    have hmap := hfilter.map Datum.x
    rw [List.map_map] at hmap
    have hid : (Datum.x ∘ fun p => (⟨o, p, 0⟩ : Datum)) = id := funext fun p => rfl
    rw [hid, List.map_id] at hmap
    exact hmap

/-- Witness for C9 at a concrete one-point grid with outputs [0, 1]. -/
theorem C9_witness :
    List.Perm (((Data.fromGridOutputs [((1 : ℚ), 1, 1)] [0, 1]).elems.filter
      (fun d => d.output == 0)).map Datum.x) (gridPoints [((1 : ℚ), 1, 1)]) :=
  (C9_grid_outputs [((1 : ℚ), 1, 1)] [0, 1]).2.2 0 (by decide) (by decide)

/-- C9 fails as stated: the collection is kept sorted by output index, so
with listed outputs [1, 0] the copy tagged 0 precedes the copy tagged 1,
not the other way around as the listed order would demand. -/
theorem C9_counterexample :
    (Data.fromGridOutputs [((1 : ℚ), 1, 1)] [1, 0]).elems.map Datum.output
        = [0, 1] ∧
    (Data.fromGridOutputs [((1 : ℚ), 1, 1)] [1, 0]).elems.map Datum.output
        ≠ [1, 0] := by
  have hc : gridCount 1 1 1 = 1 := by
    rw [gridCount, if_neg (by norm_num), if_neg (by norm_num)]
    norm_num
  have haxis : gridAxis 1 1 1 = [1] := by
    rw [gridAxis, hc]
    have h1 : List.range 1 = [0] := rfl
    rw [h1]
    simp
  have hpts : gridPoints [((1 : ℚ), 1, 1)] = [[1]] := by
    rw [gridPoints_single, haxis]
    rfl
  have hE : (Data.fromGridOutputs [((1 : ℚ), 1, 1)] [1, 0]).elems
      = [⟨0, [1], 0⟩, ⟨1, [1], 0⟩] := by
    rw [fromGridOutputs_elems, hpts]
    decide
  rw [hE]
  exact ⟨rfl, by decide⟩

end Vfl
